import Mathlib

/-!
Verification of the `ush` shell (src/main.c) against its design spec.

The C program is shallowly embedded: lines and tokens are `List Char`,
the global history array plus cursor are a `HistState`, and each C
function is translated to a Lean definition carrying the same name.
Machine-level aspects that the claims are about (allocation sizes in
bytes, bytes written by `strcpy`) are modelled as explicit `Nat`
quantities computed exactly as the source computes them.
-/

/-! ## Tokenizer (`ush_split_line`, main.c lines 263-303) -/

-- #define USH_TOK_BUFSIZE 64
def USH_TOK_BUFSIZE : Nat := 64

-- the NUL terminator and the bell character, by code point
def nulChar : Char := Char.ofNat 0

def bellChar : Char := Char.ofNat 7

-- #define USH_TOK_DELIM " \"\t\r\n\a()"
def USH_TOK_DELIM : List Char := [' ', '\"', '\t', '\r', '\n', bellChar, '(', ')']

def isDelim (c : Char) : Bool := USH_TOK_DELIM.contains c

/-- Token extraction performed by the `strtok` loop of `ush_split_line`:
scan the line left to right; outside a token (`acc = none`) a delimiter is
skipped and a non-delimiter opens a token; inside a token (`acc = some _`,
the token's characters held in reverse) a delimiter closes the token.
`strtok` returns the tokens in this exact order. -/
def tokenizeAux : List Char → Option (List Char) → List (List Char)
  | [], none => []
  | [], some acc => [acc.reverse]
  | c :: cs, none =>
      if isDelim c then tokenizeAux cs none else tokenizeAux cs (some [c])
  | c :: cs, some acc =>
      if isDelim c then acc.reverse :: tokenizeAux cs none
      else tokenizeAux cs (some (c :: acc))

def tokenize (line : List Char) : List (List Char) := tokenizeAux line none

/-- The token array returned by `ush_split_line`: the tokens in order,
followed by the NULL sentinel (`tokens[pos] = NULL`), each entry an
`Option` so the sentinel is `none`. -/
def ush_split_line (line : List Char) : List (Option (List Char)) :=
  (tokenize line).map some ++ [none]

/-- Contents of the line buffer after `ush_split_line` has run: `strtok`
leaves delimiters before and between tokens in place, but overwrites the
single delimiter that terminates each token with NUL.  The `Bool` records
whether the scan is currently inside a token. -/
def strtokMutateAux : List Char → Bool → List Char
  | [], _ => []
  | c :: cs, false =>
      if isDelim c then c :: strtokMutateAux cs false
      else c :: strtokMutateAux cs true
  | c :: cs, true =>
      if isDelim c then nulChar :: strtokMutateAux cs false
      else c :: strtokMutateAux cs true

def strtokMutate (line : List Char) : List Char := strtokMutateAux line false

/-- The C string seen by `strlen`/`strcpy` in a buffer: the characters up
to the first NUL terminator. -/
def cstringOf (buf : List Char) : List Char := buf.takeWhile (fun c => c ≠ nulChar)

/-! ### Token-array allocation sizes (`ush_split_line`)

`tokens = malloc(sizeof(char*) * bufsize)` with `bufsize = 64`; when
`pos == bufsize` the source doubles `bufsize` and calls
`realloc(tokens, bufsize)` — the new size is `bufsize` BYTES, the
`sizeof(char*)` factor is absent. `ptrBytes` stands for `sizeof(char*)`. -/

-- bytes obtained by the initial malloc
def tok_initial_alloc_bytes (ptrBytes : Nat) : Nat := ptrBytes * USH_TOK_BUFSIZE

-- bytes obtained by the first realloc (bufsize has been doubled to 128)
def tok_second_alloc_bytes : Nat := 2 * USH_TOK_BUFSIZE

-- bytes of the array that must be allocated so that storing tokens[i] stays in bounds
def tok_slot_end_bytes (ptrBytes i : Nat) : Nat := (i + 1) * ptrBytes

/-- A line of 64 single-character tokens separated by single spaces. -/
def line64 : List Char := (List.replicate 64 'a').intersperse ' '

/-! ## History buffer (`main.c` lines 147-222) -/

-- #define USH_MAX_HISTORY_COUNT 20
def USH_MAX_HISTORY_COUNT : Nat := 20

/-- The process-wide history globals: `char* history_str[20]` (a `none`
entry is a NULL pointer) and the cursor `size_t history_pos`. -/
structure HistState where
  history_str : List (Option (List Char))
  history_pos : Nat
deriving DecidableEq

/-- The state after `main` has set every `history_str` slot to NULL. -/
def initHistState : HistState :=
  { history_str := List.replicate USH_MAX_HISTORY_COUNT none, history_pos := 0 }

/-- State change of `add_to_history_util(line)`: free and overwrite the
slot at the cursor with the stored copy of `line`, then advance the
cursor modulo the capacity. -/
def add_to_history_util (line : List Char) (s : HistState) : HistState :=
  { history_str := s.history_str.set s.history_pos (some line)
    history_pos := (s.history_pos + 1) % USH_MAX_HISTORY_COUNT }

-- size_t line_size = strlen(line); malloc(line_size * sizeof(char))
def add_to_history_alloc_bytes (line : List Char) : Nat := line.length

-- strcpy(history_entry, line) writes the characters of line plus the NUL terminator
def add_to_history_copy_bytes (line : List Char) : Nat := line.length + 1

/-- The do-while walk of `ush_history`: visit `fuel` slots starting at
index `i`, stepping `i = (i + 1) % USH_MAX_HISTORY_COUNT` after each; a
non-NULL slot contributes its entry.  The C loop runs until `i` returns
to `history_pos`, i.e. exactly `USH_MAX_HISTORY_COUNT` iterations. -/
def historyWalk (slots : List (Option (List Char))) : Nat → Nat → List (List Char)
  | _, 0 => []
  | i, f + 1 =>
      match slots.getD i none with
      | some e => e :: historyWalk slots ((i + 1) % USH_MAX_HISTORY_COUNT) f
      | none => historyWalk slots ((i + 1) % USH_MAX_HISTORY_COUNT) f

/-- The entries printed by `ush_history`, in print order. -/
def ush_history_entries (s : HistState) : List (List Char) :=
  historyWalk s.history_str s.history_pos USH_MAX_HISTORY_COUNT

/-- The lines printed by `ush_history`: `history_num` starts at 1 and is
incremented only when a non-NULL slot is printed. -/
def ush_history_output (s : HistState) : List (Nat × List Char) :=
  (ush_history_entries s).enumFrom 1

/-- The builtin `ush_history`: prints the listing, performs no write to
`history_str` or `history_pos` (its body only reads them), returns 1. -/
def ush_history (s : HistState) : List (Nat × List Char) × HistState × Int :=
  (ush_history_output s, s, 1)

/-- The history effect of one `ush_loop` iteration on input `line`:
`args = ush_split_line(line)` runs first (destructively rewriting the
line buffer), then `if (args[0] != NULL) add_to_history_util(line)` —
so the text copied into history is the C string left in the mutated
buffer, not the original line. -/
def ush_loop_step (line : List Char) (s : HistState) : HistState :=
  let args := ush_split_line line
  if args.headD none ≠ none then add_to_history_util (cstringOf (strtokMutate line)) s
  else s

/-- Record a sequence of history entries starting from the fresh state,
one `add_to_history_util` per entry. -/
def recordAll (cmds : List (List Char)) : HistState :=
  cmds.foldl (fun s c => add_to_history_util c s) initHistState

/-! ## Builtin handlers and dispatch (`main.c` lines 20-103, 110-145, 230-247)

The handlers' observable effects relevant to the claims are their
continuation codes and, for `echo`/`pwd`/`history`, their printed output;
`cd`'s directory change and the handlers' stderr messages are not needed
by any claim and are not modelled. -/

-- ush_cd: both the usage-error branch and the chdir branch fall through to return 1
def ush_cd (_args : List (List Char)) : Int := 1

-- ush_help: prints the static banner and builtin list, returns 1
def ush_help (_args : List (List Char)) : Int := 1

-- ush_exit: return 0
def ush_exit (_args : List (List Char)) : Int := 0

/-- The builtin `ush_echo`: for each `i ≥ 1` with `args[i] != NULL` print
`printf("%s ", args[i])`, then `printf("\n")`; return 1.  The first
component is the printed text. -/
def ush_echo (args : List (List Char)) : List Char × Int :=
  (((args.drop 1).map (fun a => a ++ [' '])).flatten ++ ['\n'], 1)

-- ush_history returns 1 (dispatch-table view of the handler)
def ush_history_code (_args : List (List Char)) : Int := 1

-- ush_pwd returns 1 both on the perror path and after printing; returns 1
def ush_pwd_code (_args : List (List Char)) : Int := 1

/-- Initial `size` chosen by `ush_pwd` from `path_max = pathconf(".", _PC_PATH_MAX)`:
1024 when the probe fails (-1), capped at 10240, otherwise the probe value. -/
def pwd_initial_size (path_max : Int) : Nat :=
  if path_max = -1 then 1024
  else if path_max > 10240 then 10240
  else path_max.toNat

/-- The `ush_pwd` retry loop: `getcwd(buf, size)` succeeds exactly when the
working directory and its terminator fit (`needed ≤ size`), otherwise it
fails with ERANGE and the loop doubles `size`.  Returns the size at which
retrieval succeeds; `fuel` bounds the number of attempts modelled. -/
def pwd_loop (size needed : Nat) : Nat → Option Nat
  | 0 => none
  | f + 1 => if needed ≤ size then some size else pwd_loop (2 * size) needed f

-- printf("%s", ptr): the directory is printed with no trailing newline appended
def ush_pwd_output (cwd : List Char) : List Char := cwd

/-- `ush_launch`: on fork failure report and return 1; otherwise the
parent waits for the child and returns 1 — the child's exit status is
never consulted. -/
def ush_launch (forkFailed : Bool) (_childStatus : Int) : Int :=
  if forkFailed then 1 else 1

-- char *builtin_str[] = { "cd", "help", "exit", "echo", "history", "pwd"};
def builtin_str : List (List Char) :=
  ["cd".toList, "help".toList, "exit".toList, "echo".toList, "history".toList, "pwd".toList]

-- the parallel handler table builtin_func, as continuation-code functions
def builtin_func : List (List (List Char) → Int) :=
  [ush_cd, ush_help, ush_exit, fun a => (ush_echo a).2, ush_history_code, ush_pwd_code]

def ush_num_builtins : Nat := builtin_str.length

/-- The linear scan of `ush_execute`: compare `args[0]` against each
builtin name in table order, returning the first matching handler. -/
def findBuiltin : List (List Char) → List (List (List Char) → Int) → List Char →
    Option (List (List Char) → Int)
  | n :: ns, f :: fs, cmd => if cmd = n then some f else findBuiltin ns fs cmd
  | _, _, _ => none

/-- The dispatcher `ush_execute`: empty command returns 1; a builtin name
invokes its handler; otherwise delegate to `ush_launch`.  `forkFailed`
and `childStatus` are the environment of the launch. -/
def ush_execute (args : List (List Char)) (forkFailed : Bool) (childStatus : Int) : Int :=
  match args with
  | [] => 1
  | cmd :: _ =>
    match findBuiltin builtin_str builtin_func cmd with
    | some f => f args
    | none => ush_launch forkFailed childStatus

/-! ## Spec-side definitions, for refinement comparison -/

/-- Modelled from the spec's words (tokenizer contract, §4.1 / claim C5):
the maximal non-empty substrings lying between runs of delimiter
characters, in left-to-right order.  A delimiter is skipped; otherwise
the maximal delimiter-free run from here is one token and scanning
resumes after it. -/
def specMaximalTokens : List Char → List (List Char)
  | [] => []
  | c :: cs =>
      if h : isDelim c then specMaximalTokens cs
      else ((c :: cs).takeWhile (fun d => !isDelim d)) ::
        specMaximalTokens ((c :: cs).dropWhile (fun d => !isDelim d))
termination_by l => l.length
decreasing_by
  · simp only [List.length_cons]
    omega
  · simp only [List.dropWhile_cons, h, Bool.not_false, if_true, List.length_cons]
    have := (List.dropWhile_suffix (l := cs) (fun d => !isDelim d)).length_le
    omega

/-! ## Theorems -/

/-- C1: the code tokenizes before recording, so what reaches history is
the post-`strtok` buffer, whose C string is only the first token (with
its leading delimiters): on input `"echo a\n"` the recorded entry is
`"echo"`, not the full raw line. -/
theorem c1_history_records_mangled_line :
    tokenize "echo a\n".toList ≠ [] ∧
    strtokMutate "echo a\n".toList =
      "echo".toList ++ [nulChar] ++ "a".toList ++ [nulChar] ∧
    cstringOf (strtokMutate "echo a\n".toList) = "echo".toList ∧
    cstringOf (strtokMutate "echo a\n".toList) ≠ "echo a\n".toList ∧
    (ush_loop_step "echo a\n".toList initHistState).history_str.getD 0 none =
      some "echo".toList := by
  refine ⟨by decide, by decide, by decide, by decide, ?_⟩
  decide

/-- C2: `add_to_history_util` allocates exactly `strlen(line)` bytes
(`malloc(line_size * sizeof(char))`, no `+ 1`), while `strcpy` writes
`strlen(line) + 1` bytes including the terminator: on the line `"ls"`
the allocation is 2 bytes but 3 bytes are written, one past the end. -/
theorem c2_history_alloc_one_byte_short :
    add_to_history_alloc_bytes "ls".toList = 2 ∧
    add_to_history_copy_bytes "ls".toList = 3 ∧
    ∀ line : List Char,
      add_to_history_alloc_bytes line < add_to_history_copy_bytes line := by
  refine ⟨by decide, by decide, fun line => ?_⟩
  simp [add_to_history_alloc_bytes, add_to_history_copy_bytes]

/-- C4: the dispatcher's continuation code is 0 exactly when the command
is `exit`: `ush_execute` returns 1 on an empty argument list, `ush_exit`
returns 0, every other builtin handler returns 1, `ush_launch` returns 1
regardless of fork failure or the child's exit status, and
`ush_execute args _ _ = 0` iff `args[0]` is `exit`. -/
theorem c4_exit_is_only_terminator :
    (∀ ff cs, ush_execute [] ff cs = 1) ∧
    (∀ args, ush_exit args = 0 ∧ ush_cd args = 1 ∧ ush_help args = 1 ∧
      (ush_echo args).2 = 1 ∧ ush_history_code args = 1 ∧ ush_pwd_code args = 1) ∧
    (∀ ff cs, ush_launch ff cs = 1) ∧
    (∀ args ff cs, ush_execute args ff cs = 0 ↔ args.head? = some "exit".toList) := by
  refine ⟨fun ff cs => rfl, fun args => ⟨rfl, rfl, rfl, rfl, rfl, rfl⟩,
    fun ff cs => ?_, fun args ff cs => ?_⟩
  · simp [ush_launch]
  · match args with
    | [] => simp [ush_execute]
    | cmd :: rest =>
      simp only [ush_execute, builtin_str, builtin_func, findBuiltin, List.head?,
        Option.some.injEq]
      have e1 : "cd".toList = 'c' :: 'd' :: [] := rfl
      have e2 : "help".toList = 'h' :: 'e' :: 'l' :: 'p' :: [] := rfl
      have e3 : "exit".toList = 'e' :: 'x' :: 'i' :: 't' :: [] := rfl
      have e4 : "echo".toList = 'e' :: 'c' :: 'h' :: 'o' :: [] := rfl
      have e5 : "history".toList = 'h' :: 'i' :: 's' :: 't' :: 'o' :: 'r' :: 'y' :: [] := rfl
      have e6 : "pwd".toList = 'p' :: 'w' :: 'd' :: [] := rfl
      rw [e1, e2, e3, e4, e5, e6]
      by_cases h1 : cmd = 'c' :: 'd' :: []
      · subst h1; simp [ush_cd]
      rw [if_neg h1]
      by_cases h2 : cmd = 'h' :: 'e' :: 'l' :: 'p' :: []
      · subst h2; simp [ush_help]
      rw [if_neg h2]
      by_cases h3 : cmd = 'e' :: 'x' :: 'i' :: 't' :: []
      · subst h3; simp [ush_exit]
      rw [if_neg h3]
      by_cases h4 : cmd = 'e' :: 'c' :: 'h' :: 'o' :: []
      · subst h4; simp [ush_echo]
      rw [if_neg h4]
      by_cases h5 : cmd = 'h' :: 'i' :: 's' :: 't' :: 'o' :: 'r' :: 'y' :: []
      · subst h5; simp [ush_history_code]
      rw [if_neg h5]
      by_cases h6 : cmd = 'p' :: 'w' :: 'd' :: []
      · subst h6; simp [ush_pwd_code]
      rw [if_neg h6]
      simp only [ush_launch, ite_self]
      exact iff_of_false (by decide) (by simpa using h3)

/-- C9: a line whose tokenization yields no tokens is not recorded:
the loop iteration leaves the whole history state — every slot and the
cursor — unchanged, and the history listing afterwards is unchanged. -/
theorem c9_empty_command_skips_history (line : List Char) (s : HistState)
    (h : tokenize line = []) :
    ush_loop_step line s = s ∧
    ush_history_entries (ush_loop_step line s) = ush_history_entries s := by
  have hstep : ush_loop_step line s = s := by
    simp [ush_loop_step, ush_split_line, h]
  exact ⟨hstep, by rw [hstep]⟩

/-- Witness for C9 at the delimiter-only line `" \n"` and the fresh state. -/
theorem c9_witness :
    tokenize " \n".toList = [] ∧
    ush_loop_step " \n".toList initHistState = initHistState :=
  ⟨by decide, (c9_empty_command_skips_history " \n".toList initHistState (by decide)).1⟩

/-- C10: `ush_history` is read-only: it returns the state it was given,
repeating it yields the identical listing, and a later record operation
is unaffected by having listed first. -/
theorem c10_history_listing_read_only (s : HistState) :
    (ush_history s).2.1 = s ∧
    (ush_history ((ush_history s).2.1)).1 = (ush_history s).1 ∧
    (∀ c, add_to_history_util c ((ush_history s).2.1) = add_to_history_util c s) ∧
    (ush_history s).1 = ush_history_output s := by
  exact ⟨rfl, rfl, fun c => rfl, rfl⟩

/-- C6: the first 64 slot writes fit the initial allocation, but the
realloc on overflow is called with `bufsize` bytes (128), not
`bufsize * sizeof(char*)`: as soon as the 64-slot array fills — here a
line of 64 one-character tokens, whose NULL sentinel is written at slot
index 64 — the write needs `65 * sizeof(char*)` bytes, which exceeds the
128-byte reallocation on any platform with pointers of at least 2 bytes. -/
theorem c6_token_array_realloc_underallocates (ptrBytes : Nat) (h : 2 ≤ ptrBytes) :
    (tokenize line64).length = 64 ∧
    tok_slot_end_bytes ptrBytes 63 ≤ tok_initial_alloc_bytes ptrBytes ∧
    tok_second_alloc_bytes < tok_slot_end_bytes ptrBytes 64 := by
  refine ⟨by decide, ?_, ?_⟩ <;>
    simp only [tok_slot_end_bytes, tok_initial_alloc_bytes, tok_second_alloc_bytes,
      USH_TOK_BUFSIZE] <;>
    omega

/-- Witness for C6 on 8-byte pointers: the sentinel write needs 520
bytes but the reallocated array is 128 bytes. -/
theorem c6_witness :
    2 ≤ 8 ∧
    ((tokenize line64).length = 64 ∧
      tok_slot_end_bytes 8 63 ≤ tok_initial_alloc_bytes 8 ∧
      tok_second_alloc_bytes < tok_slot_end_bytes 8 64) :=
  ⟨by decide, c6_token_array_realloc_underallocates 8 (by decide)⟩

/-- C7 fails as stated: `ush_echo` prints `printf("%s ", args[i])`, a
trailing space after every argument including the last, so `echo a b c`
outputs `"a b c \n"`, which differs from the claimed `"a b c\n"`. -/
theorem c7_counterexample :
    (ush_echo ["echo".toList, "a".toList, "b".toList, "c".toList]).1 = "a b c \n".toList ∧
    "a b c \n".toList ≠ "a b c\n".toList := by
  exact ⟨by decide, by decide⟩

/-- Flattening per-argument `"%s "` chunks is the space-separated joining
of the arguments followed by one extra trailing space when there is at
least one argument. -/
theorem flatten_map_append_space (l : List (List Char)) :
    (l.map (fun a => a ++ [' '])).flatten =
      List.intercalate [' '] l ++ if l = [] then [] else [' '] := by
  induction l with
  | nil => simp [List.intercalate]
  | cons a t ih =>
    cases t with
    | nil => simp [List.intercalate]
    | cons b t2 =>
      simp only [List.map_cons, List.flatten_cons] at ih ⊢
      rw [ih]
      simp only [List.intercalate, List.intersperse_cons_cons, List.flatten_cons]
      simp [List.append_assoc]

/-- C7 amended: the echo builtin prints the arguments after the command
name space-separated with one additional trailing space when at least one
argument is present, followed by exactly one newline; `echo a b c`
produces `"a b c \n"` and `echo` alone produces `"\n"`; the handler
always returns 1. -/
theorem c7_amended (args : List (List Char)) :
    (ush_echo args).1 =
      (List.intercalate [' '] (args.drop 1) ++
        (if args.drop 1 = [] then [] else [' '])) ++ ['\n'] ∧
    (ush_echo ["echo".toList, "a".toList, "b".toList, "c".toList]).1 = "a b c \n".toList ∧
    (ush_echo ["echo".toList]).1 = "\n".toList ∧
    (ush_echo args).2 = 1 := by
  refine ⟨?_, by decide, by decide, rfl⟩
  simp only [ush_echo]
  rw [flatten_map_append_space]

/-- C8 fails as stated: 1024 is not a minimum clamp — it is used only
when `pathconf` fails with -1.  A platform path-length hint of 512 gives
an initial buffer of 512 bytes, below the claimed minimum of 1024. -/
theorem c8_counterexample :
    pwd_initial_size 512 = 512 ∧ ¬ 1024 ≤ pwd_initial_size 512 := by
  exact ⟨by decide, by decide⟩

/-- The `ush_pwd` retry loop doubles the buffer until `getcwd` fits:
given any positive start size it succeeds at the first power-of-two
multiple of the start size that reaches `needed`, every earlier attempt
having been too small. -/
theorem pwd_loop_doubles (needed : Nat) :
    ∀ fuel s0, 0 < s0 → needed ≤ 2 ^ fuel * s0 →
      ∃ j, pwd_loop s0 needed (fuel + 1) = some (2 ^ j * s0) ∧
        needed ≤ 2 ^ j * s0 ∧ ∀ i < j, 2 ^ i * s0 < needed := by
  intro fuel
  induction fuel with
  | zero =>
    intro s0 hs h
    rw [pow_zero, one_mul] at h
    exact ⟨0, by simp [pwd_loop, h], by simpa using h, fun i hi => absurd hi (by omega)⟩
  | succ fuel ih =>
    intro s0 hs h
    by_cases hle : needed ≤ s0
    · exact ⟨0, by simp [pwd_loop, hle], by simpa using hle, fun i hi => absurd hi (by omega)⟩
    · have h2 : needed ≤ 2 ^ fuel * (2 * s0) := by
        rw [pow_succ] at h
        calc needed ≤ 2 ^ fuel * 2 * s0 := h
        _ = 2 ^ fuel * (2 * s0) := by ring
      obtain ⟨j, hj1, hj2, hj3⟩ := ih (2 * s0) (by omega) h2
      refine ⟨j + 1, ?_, ?_, ?_⟩
      · have : pwd_loop s0 needed (fuel + 1 + 1) = pwd_loop (2 * s0) needed (fuel + 1) := by
          simp [pwd_loop, hle]
        rw [this, hj1, pow_succ]
        congr 1
        ring
      · rw [pow_succ]
        calc needed ≤ 2 ^ j * (2 * s0) := hj2
        _ = 2 ^ j * 2 * s0 := by ring
      · intro i hi
        match i with
        | 0 => simpa using (by omega : s0 < needed)
        | k + 1 =>
          have := hj3 k (by omega)
          calc 2 ^ (k + 1) * s0 = 2 ^ k * (2 * s0) := by ring
          _ < needed := this

/-- C8 amended: the initial pwd buffer size is the platform hint itself
when the hint is available and at most 10240, it is 1024 only in the
fallback case where `pathconf` returns -1, and it is capped at 10240;
the buffer then doubles until retrieval succeeds; the directory is
printed with no trailing newline appended. -/
theorem c8_pwd_buffer_amended :
    pwd_initial_size (-1) = 1024 ∧
    (∀ pm : Int, 10240 < pm → pwd_initial_size pm = 10240) ∧
    (∀ pm : Int, pm ≠ -1 → pm ≤ 10240 → pwd_initial_size pm = pm.toNat) ∧
    (∀ s0 needed : Nat, 0 < s0 →
      ∃ j, pwd_loop s0 needed (needed + 1) = some (2 ^ j * s0) ∧
        needed ≤ 2 ^ j * s0 ∧ ∀ i < j, 2 ^ i * s0 < needed) ∧
    (∀ cwd, ush_pwd_output cwd = cwd) := by
  refine ⟨by decide, fun pm h => ?_, fun pm h1 h2 => ?_, fun s0 needed hs => ?_, fun cwd => rfl⟩
  · rw [pwd_initial_size, if_neg (by omega), if_pos h]
  · rw [pwd_initial_size, if_neg h1, if_neg (by omega)]
  · refine pwd_loop_doubles needed needed s0 hs ?_
    have h1 : needed ≤ 2 ^ needed := le_of_lt (Nat.lt_two_pow needed)
    calc needed ≤ 2 ^ needed := h1
    _ = 2 ^ needed * 1 := by ring
    _ ≤ 2 ^ needed * s0 := Nat.mul_le_mul_left _ hs

/-- Witness for C8: the hint 20000 is capped to 10240, the hint 512 is
used as-is, and the doubling loop starting at 1024 with a directory
needing 5000 bytes reaches a sufficient size. -/
theorem c8_witness :
    pwd_initial_size 20000 = 10240 ∧
    pwd_initial_size 512 = Int.toNat 512 ∧
    (pwd_loop 1024 5000 5001).isSome = true := by
  refine ⟨c8_pwd_buffer_amended.2.1 20000 (by decide),
    c8_pwd_buffer_amended.2.2.1 512 (by decide) (by decide), ?_⟩
  obtain ⟨j, hj, -, -⟩ := c8_pwd_buffer_amended.2.2.2.1 1024 5000 (by decide)
  rw [hj]
  rfl

/-- Splitting the fuel of the history walk: visiting `f + g` slots from
`i` visits `f` slots from `i` and then `g` slots from `(i + f) % 20`. -/
theorem historyWalk_add (slots : List (Option (List Char))) :
    ∀ f g i, i < 20 →
      historyWalk slots i (f + g) =
        historyWalk slots i f ++ historyWalk slots ((i + f) % 20) g := by
  intro f
  induction f with
  | zero =>
    intro g i hi
    simp [historyWalk, Nat.mod_eq_of_lt hi]
  | succ f ih =>
    intro g i hi
    have hstep : (i + 1) % 20 < 20 := Nat.mod_lt _ (by omega)
    have hmod : ((i + 1) % 20 + f) % 20 = (i + (f + 1)) % 20 := by omega
    have hadd : f + 1 + g = (f + g) + 1 := by omega
    rw [hadd]
    cases hslot : slots.getD i none with
    | some e =>
      simp only [historyWalk, USH_MAX_HISTORY_COUNT, hslot]
      rw [ih g ((i + 1) % 20) hstep, hmod]
      simp
    | none =>
      simp only [historyWalk, USH_MAX_HISTORY_COUNT, hslot]
      rw [ih g ((i + 1) % 20) hstep, hmod]

/-- A walk that stays below index 20 never wraps: it reads the slots
`i, i+1, …, i+f-1` in order, i.e. a take of a drop. -/
theorem historyWalk_no_wrap (slots : List (Option (List Char))) :
    ∀ f i, i + f ≤ 20 →
      historyWalk slots i f = ((slots.drop i).take f).filterMap id := by
  intro f
  induction f with
  | zero => intro i hi; simp [historyWalk]
  | succ f ih =>
    intro i hi
    have hW : historyWalk slots ((i + 1) % 20) f =
        ((slots.drop (i + 1)).take f).filterMap id := by
      by_cases hw : i + 1 = 20
      · have hf : f = 0 := by omega
        subst hf
        simp [historyWalk]
      · have : (i + 1) % 20 = i + 1 := Nat.mod_eq_of_lt (by omega)
        rw [this]
        exact ih (i + 1) (by omega)
    cases hd : slots.drop i with
    | nil =>
      have hlen : slots.length ≤ i := List.drop_eq_nil_iff.mp hd
      have hget : slots.getD i none = none := by
        rw [List.getD_eq_getElem?_getD, List.getElem?_eq_none hlen]
        rfl
      have hd1 : slots.drop (i + 1) = [] := List.drop_eq_nil_iff.mpr (by omega)
      simp only [historyWalk, USH_MAX_HISTORY_COUNT, hget, hW, hd1, hd]
      simp
    | cons x xs =>
      have hget : slots.getD i none = x := by
        rw [List.getD_eq_getElem?_getD, ← List.head?_drop, hd]
        rfl
      have hd1 : slots.drop (i + 1) = xs := by
        have := List.drop_drop 1 i slots
        rw [hd] at this
        simpa using this.symm
      simp only [historyWalk, USH_MAX_HISTORY_COUNT, hget, hW, hd1, hd]
      cases x with
      | some e => simp [List.filterMap_cons]
      | none => simp [List.filterMap_cons]

/-- The `ush_history` do-while visits the cursor slot first, then the
younger slots, wrapping at 20: its entries are exactly the non-NULL
values of `history_str` rotated so that the cursor slot comes first. -/
theorem ush_history_entries_rotate (s : HistState)
    (hlen : s.history_str.length = 20) (hp : s.history_pos < 20) :
    ush_history_entries s =
      (s.history_str.drop s.history_pos ++ s.history_str.take s.history_pos).filterMap id := by
  rw [ush_history_entries]
  simp only [USH_MAX_HISTORY_COUNT]
  have h1 : (20 : Nat) = (20 - s.history_pos) + s.history_pos := by omega
  rw [h1, historyWalk_add s.history_str (20 - s.history_pos) s.history_pos s.history_pos hp]
  have e2 : (s.history_pos + (20 - s.history_pos)) % 20 = 0 := by omega
  rw [e2, historyWalk_no_wrap s.history_str (20 - s.history_pos) s.history_pos (by omega),
    historyWalk_no_wrap s.history_str s.history_pos 0 (by omega)]
  have e3 : (s.history_str.drop s.history_pos).take (20 - s.history_pos) =
      s.history_str.drop s.history_pos := by
    have e4 : 20 - s.history_pos = (s.history_str.drop s.history_pos).length := by
      rw [List.length_drop, hlen]
    rw [e4, List.take_length]
  rw [e3, List.drop_zero, List.filterMap_append]

/-- Recording one more entry folds on the right. -/
theorem recordAll_append (cmds : List (List Char)) (c : List Char) :
    recordAll (cmds ++ [c]) = add_to_history_util c (recordAll cmds) := by
  simp [recordAll, List.foldl_append]

/-- Ring invariant of the history globals after recording a sequence:
the array keeps its 20 slots, the cursor is the record count modulo 20,
and slot `j` is NULL exactly when fewer than `j + 1` records were made. -/
theorem recordAll_inv (cmds : List (List Char)) :
    (recordAll cmds).history_str.length = 20 ∧
    (recordAll cmds).history_pos = cmds.length % 20 ∧
    ∀ j, j < 20 → ((recordAll cmds).history_str.getD j none = none ↔ cmds.length ≤ j) := by
  induction cmds using List.reverseRecOn with
  | nil =>
    refine ⟨by simp [recordAll, initHistState, USH_MAX_HISTORY_COUNT], rfl, fun j hj => ?_⟩
    simp only [recordAll, List.foldl_nil, initHistState, List.length_nil,
      List.getD_eq_getElem?_getD, List.getElem?_replicate]
    constructor
    · intro; omega
    · intro; split <;> rfl
  | append_singleton cmds c ih =>
    obtain ⟨hlen, hpos, hocc⟩ := ih
    rw [recordAll_append]
    have hp : (recordAll cmds).history_pos < 20 := by rw [hpos]; omega
    refine ⟨by simp [add_to_history_util, List.length_set, hlen], ?_, fun j hj => ?_⟩
    · simp only [add_to_history_util, USH_MAX_HISTORY_COUNT, hpos, List.length_append,
        List.length_cons, List.length_nil]
      omega
    · simp only [add_to_history_util, List.getD_eq_getElem?_getD, List.length_append,
        List.length_cons, List.length_nil]
      by_cases hj2 : j = (recordAll cmds).history_pos
      · subst hj2
        rw [List.getElem?_set_self (by omega)]
        have : cmds.length % 20 ≤ cmds.length := Nat.mod_le _ _
        simp only [Option.getD_some]
        constructor
        · intro hxx; exact absurd hxx (by simp)
        · intro hxx; rw [hpos] at hxx; omega
      · rw [List.getElem?_set_ne (fun hx => hj2 hx.symm)]
        have hold := hocc j hj
        rw [List.getD_eq_getElem?_getD] at hold
        rw [hold]
        rw [hpos] at hj2
        omega

/-- Effect of one record on the listing: the new entry is appended at
the end; when the overwritten cursor slot was occupied (a full ring) the
overwritten entry — the first one the old walk printed — disappears. -/
theorem entries_after_add (c : List Char) (s : HistState)
    (hlen : s.history_str.length = 20) (hp : s.history_pos < 20) :
    ush_history_entries (add_to_history_util c s) =
      (if s.history_str.getD s.history_pos none = none then ush_history_entries s
       else (ush_history_entries s).tail) ++ [c] := by
  have hTlen : (s.history_str.take s.history_pos).length = s.history_pos := by
    rw [List.length_take, hlen]
    exact min_eq_left (by omega)
  have hset : s.history_str.set s.history_pos (some c) =
      s.history_str.take s.history_pos ++ some c :: s.history_str.drop (s.history_pos + 1) := by
    rw [List.set_eq_take_append_cons_drop, if_pos (by omega)]
  have hstate : add_to_history_util c s =
      ⟨s.history_str.set s.history_pos (some c), (s.history_pos + 1) % 20⟩ := rfl
  have hnew : ush_history_entries (add_to_history_util c s) =
      ((s.history_str.drop (s.history_pos + 1) ++ s.history_str.take s.history_pos).filterMap id)
        ++ [c] := by
    rw [hstate, ush_history_entries_rotate _ (by simp [List.length_set, hlen])
      (Nat.mod_lt _ (by omega))]
    by_cases hc : s.history_pos + 1 < 20
    · rw [show (s.history_pos + 1) % 20 = s.history_pos + 1 from Nat.mod_eq_of_lt hc]
      simp only [hset]
      have hcons : s.history_str.take s.history_pos ++
          some c :: s.history_str.drop (s.history_pos + 1) =
          (s.history_str.take s.history_pos ++ [some c]) ++
            s.history_str.drop (s.history_pos + 1) := by
        simp [List.append_assoc]
      have hlen2 : (s.history_str.take s.history_pos ++ [some c]).length = s.history_pos + 1 := by
        simp [hTlen]
      rw [hcons, List.drop_left' hlen2, List.take_left' hlen2]
      simp [List.filterMap_append]
    · have hc20 : s.history_pos + 1 = 20 := by omega
      have hD : s.history_str.drop (s.history_pos + 1) = [] := by
        rw [hc20, ← hlen, List.drop_length]
      have hD20 : s.history_str.drop 20 = [] := by
        rw [← hlen, List.drop_length]
      rw [hc20]
      simp only [Nat.mod_self, List.drop_zero, List.take_zero, List.append_nil, hset, hD, hD20]
      simp [List.filterMap_append]
  have hold : ush_history_entries s =
      (s.history_str.getD s.history_pos none).toList ++
        ((s.history_str.drop (s.history_pos + 1) ++
          s.history_str.take s.history_pos).filterMap id) := by
    rw [ush_history_entries_rotate s hlen hp,
      List.drop_eq_getElem_cons (show s.history_pos < s.history_str.length by omega)]
    rw [List.getD_eq_getElem?_getD, List.getElem?_eq_getElem (by omega)]
    cases s.history_str[s.history_pos] with
    | some e => simp [List.filterMap_cons, List.filterMap_append]
    | none => simp [List.filterMap_cons, List.filterMap_append]
  rw [hnew]
  cases hslot : s.history_str.getD s.history_pos none with
  | none =>
    rw [if_pos rfl, hold, hslot]
    simp
  | some e =>
    rw [if_neg (by simp), hold, hslot]
    simp

/-- After recording any sequence of commands, the listing walk returns
exactly the most recent (at most) 20 of them, oldest first. -/
theorem recordAll_entries (cmds : List (List Char)) :
    ush_history_entries (recordAll cmds) = cmds.drop (cmds.length - 20) := by
  induction cmds using List.reverseRecOn with
  | nil =>
    have h0 : ush_history_entries (recordAll []) = [] := by decide
    simp [h0]
  | append_singleton cmds c ih =>
    obtain ⟨hlen, hpos, hocc⟩ := recordAll_inv cmds
    have hp : (recordAll cmds).history_pos < 20 := by rw [hpos]; omega
    rw [recordAll_append, entries_after_add c (recordAll cmds) hlen hp]
    have hocc_p := hocc (recordAll cmds).history_pos hp
    by_cases hN : cmds.length < 20
    · rw [if_pos (hocc_p.mpr (by rw [hpos]; omega)), ih]
      have h1 : cmds.length - 20 = 0 := by omega
      have h2 : (cmds ++ [c]).length - 20 = 0 := by simp [List.length_append]; omega
      rw [h1, h2, List.drop_zero, List.drop_zero]
    · have hsome : ¬ (recordAll cmds).history_str.getD (recordAll cmds).history_pos none
          = none := by
        intro hx
        have hle := hocc_p.mp hx
        rw [hpos] at hle
        omega
      rw [if_neg hsome, ih, List.tail_drop]
      have h3 : (cmds ++ [c]).length = cmds.length + 1 := by simp
      rw [h3, show cmds.length + 1 - 20 = cmds.length - 20 + 1 from by omega,
        List.drop_append_of_le_length (by omega)]

/-- Equation: the spec tokenization of the empty line is empty. -/
theorem specMaximalTokens_nil : specMaximalTokens [] = [] := by
  rw [specMaximalTokens.eq_def]

/-- Equation: a leading delimiter is skipped by the spec tokenization. -/
theorem specMaximalTokens_cons_delim (c : Char) (cs : List Char) (hc : isDelim c = true) :
    specMaximalTokens (c :: cs) = specMaximalTokens cs := by
  rw [specMaximalTokens.eq_def]
  simp [hc]

/-- Equation: at a non-delimiter the spec tokenization emits the maximal
delimiter-free run and continues after it. -/
theorem specMaximalTokens_cons_nondelim (c : Char) (cs : List Char) (hc : isDelim c = false) :
    specMaximalTokens (c :: cs) =
      ((c :: cs).takeWhile (fun d => !isDelim d)) ::
        specMaximalTokens ((c :: cs).dropWhile (fun d => !isDelim d)) := by
  rw [specMaximalTokens.eq_def]
  simp [hc]

/-- The `strtok` scan agrees with the maximal-run description: with no
token open it produces the spec tokenization, and with a token open
(characters `acc`, reversed) it finishes that token with the maximal
delimiter-free run and continues. -/
theorem tokenizeAux_eq_spec (l : List Char) :
    tokenizeAux l none = specMaximalTokens l ∧
    ∀ acc, tokenizeAux l (some acc) =
      (acc.reverse ++ l.takeWhile (fun d => !isDelim d)) ::
        specMaximalTokens (l.dropWhile (fun d => !isDelim d)) := by
  induction l with
  | nil =>
    constructor
    · rw [specMaximalTokens_nil]
      rfl
    · intro acc
      simp [tokenizeAux, specMaximalTokens_nil]
  | cons c cs ih =>
    constructor
    · by_cases hc : isDelim c
      · rw [show tokenizeAux (c :: cs) none = tokenizeAux cs none from by
          simp [tokenizeAux, hc]]
        rw [ih.1, specMaximalTokens_cons_delim c cs hc]
      · rw [show tokenizeAux (c :: cs) none = tokenizeAux cs (some [c]) from by
          simp [tokenizeAux, hc]]
        rw [ih.2 [c], specMaximalTokens_cons_nondelim c cs (by simpa using hc)]
        simp [List.takeWhile_cons, List.dropWhile_cons, hc]
    · intro acc
      by_cases hc : isDelim c
      · rw [show tokenizeAux (c :: cs) (some acc) = acc.reverse :: tokenizeAux cs none from by
          simp [tokenizeAux, hc]]
        rw [ih.1]
        simp only [List.takeWhile_cons, List.dropWhile_cons, hc, Bool.not_true,
          Bool.false_eq_true, if_false, List.append_nil]
        rw [specMaximalTokens_cons_delim c cs hc]
      · rw [show tokenizeAux (c :: cs) (some acc) = tokenizeAux cs (some (c :: acc)) from by
          simp [tokenizeAux, hc]]
        rw [ih.2 (c :: acc)]
        simp [List.takeWhile_cons, List.dropWhile_cons, hc]

/-- C5: the tokenizer computes exactly the maximal non-empty substrings
between runs of delimiter characters, in order with content preserved
(refinement against the spec-worded `specMaximalTokens`); the worked
examples hold, with the NULL end marker closing the argument array and
appearing first for a delimiters-only line. -/
theorem c5_tokenizer_maximal_substrings :
    (∀ l, tokenize l = specMaximalTokens l) ∧
    tokenize "echo  a b\tc".toList =
      ["echo".toList, "a".toList, "b".toList, "c".toList] ∧
    ush_split_line "echo  a b\tc".toList =
      [some "echo".toList, some "a".toList, some "b".toList, some "c".toList, none] ∧
    ush_split_line " \t\n()".toList = [none] ∧
    (ush_split_line " \t\n()".toList).head? = some none := by
  refine ⟨fun l => (tokenizeAux_eq_spec l).1, by decide, by decide, by decide, by decide⟩

/-- C3: for any recorded sequence, `history` prints exactly the most
recent `min N 20` commands, oldest first (`cmds.drop (N - 20)`), with the
never-written NULL slots skipped, and numbers them contiguously from 1:
1..20 when more than 20 were recorded, 1..N when N ≤ 20. -/
theorem c3_history_lists_most_recent_20 (cmds : List (List Char)) :
    ush_history_entries (recordAll cmds) = cmds.drop (cmds.length - 20) ∧
    (ush_history_entries (recordAll cmds)).length = min cmds.length 20 ∧
    (ush_history_output (recordAll cmds)).map Prod.fst =
      List.range' 1 (min cmds.length 20) := by
  have h1 := recordAll_entries cmds
  refine ⟨h1, ?_, ?_⟩
  · rw [h1, List.length_drop]
    omega
  · rw [ush_history_output, List.enumFrom_map_fst, h1, List.length_drop]
    congr 1
    omega
